import Mathlib

/-!
Shallow embedding of `src/instrumentation/instrumentor.py` (class `Instrumentor`).

Modelling conventions:
* Python floats are modelled as rationals (`ℚ`); `time.time()` readings are
  explicit parameters of each operation (the Python code reads the clock
  internally, so every clock read becomes one argument).
* `round(x, n)` is modelled by `round2`/`round3` below using Mathlib's `round`
  (round-half-up).  Python rounds ties to even; no claim below depends on the
  direction of exact ties, only on monotonicity and exactness away from ties.
* `float('inf')` (the initial `min_time` sentinel) is modelled as `⊤ : WithTop ℚ`.
* Python dicts keyed by strings are association lists; `dictInsert` mirrors
  Python's `d[k] = v` (overwrite in place, else append), `dictRemove` mirrors
  `d.pop(k)`, `dictGet` mirrors `d.get(k)` / `k in d`.
* `raise ValueError` is modelled by returning `Except.error` together with the
  (unchanged) state, since in the source the raise happens before any mutation.
* Python truthiness tests on `self.start_time` (`if self.start_time`) are
  modelled exactly: they fail both when the value is `None` and when it is `0`.
  The test `if self.start_time is None` in `start_operation` is the `Option`
  match.
-/

/-- Rounding to 2 decimal places, Python `round(x, 2)` (ties differ, see above). -/
def round2 (x : ℚ) : ℚ := ((round (x * 100) : ℤ) : ℚ) / 100

/-- Rounding to 3 decimal places, Python `round(x, 3)`. -/
def round3 (x : ℚ) : ℚ := ((round (x * 1000) : ℤ) : ℚ) / 1000

/-- Opaque operation metadata (`metadata: Optional[Dict[str, Any]]`). -/
def Metadata : Type := List (String × String)

deriving instance DecidableEq for Metadata

/-- The fixed category set `Instrumentor.CATEGORIES` (a Python set literal;
we keep the literal's textual order, iteration order of a Python set is
unspecified and no claim depends on it). -/
def CATEGORIES : List String :=
  ["database_calls", "llm_calls", "schema_operations",
   "vector_db_operations", "embedding_operations", "minhash_lsh_operations"]

/-- An in-flight operation, the value stored in `self.active_operations`. -/
structure ActiveOp where
  category : String
  operation_name : String
  start_time : ℚ
  metadata : Metadata
  deriving DecidableEq

/-- A completed operation record, the dict appended to `self.operations`. -/
structure OperationRecord where
  category : String
  operation_name : String
  start_time : ℚ
  end_time : ℚ
  duration : ℚ
  relative_start : ℚ
  relative_end : ℚ
  metadata : Metadata
  deriving DecidableEq

/-- Per-category running aggregate, the value stored in `self.aggregates`.
`min_time` starts at `float('inf')`, modelled as `⊤`. -/
structure Aggregate where
  total_time : ℚ
  count : ℕ
  min_time : WithTop ℚ
  max_time : ℚ
  deriving DecidableEq

/-- The mutable session state of the `Instrumentor` singleton. -/
structure Instrumentor where
  operations : List OperationRecord
  active_operations : List (String × ActiveOp)
  aggregates : String → Aggregate
  start_time : Option ℚ

/-- Association-list lookup, Python `d[k]` / `k in d`. -/
def dictGet {α : Type} (k : String) : List (String × α) → Option α
  | [] => none
  | p :: rest => if p.1 = k then some p.2 else dictGet k rest

/-- Python `d[k] = v`: overwrite in place when the key is present, else append
(Python dicts preserve insertion order). -/
def dictInsert {α : Type} (k : String) (v : α) (l : List (String × α)) :
    List (String × α) :=
  if (dictGet k l).isSome then
    l.map (fun p => if p.1 = k then (k, v) else p)
  else l ++ [(k, v)]

/-- Python `d.pop(k)` (the removal part; keys are unique in a Python dict). -/
def dictRemove {α : Type} (k : String) (l : List (String × α)) :
    List (String × α) :=
  l.filter (fun p => decide (p.1 ≠ k))

/-- The aggregate a category starts with (`__init__` / `reset`). -/
def initialAggregate : Aggregate :=
  { total_time := 0, count := 0, min_time := ⊤, max_time := 0 }

/-- The state right after `__init__`. -/
def initialState : Instrumentor :=
  { operations := []
    active_operations := []
    aggregates := fun _ => initialAggregate
    start_time := none }

namespace Instrumentor

/-- `Instrumentor.reset`. -/
def reset (_s : Instrumentor) : Instrumentor := initialState

/-- `Instrumentor.start_session`; `t` is the `time.time()` reading. -/
def start_session (t : ℚ) (s : Instrumentor) : Instrumentor :=
  { reset s with start_time := some t }

/-- The operation id `f"{category}_{operation_name}_{time.time()}"`. -/
def mkOperationId (category operation_name : String) (t : ℚ) : String :=
  category ++ "_" ++ operation_name ++ "_" ++ toString t

/-- `Instrumentor.start_operation`.  Clock readings: `tS` for the implicit
`start_session` (read only when it happens), `tI` inside the id string,
`tA` stored in the active record.  The `ValueError` raise is the `error`
result; it happens before any mutation, so the state is returned unchanged. -/
def start_operation (category operation_name : String) (metadata : Metadata)
    (tS tI tA : ℚ) (s : Instrumentor) : Except String String × Instrumentor :=
  if category ∈ CATEGORIES then
    let s1 := match s.start_time with
      | none => start_session tS s
      | some _ => s
    let operation_id := mkOperationId category operation_name tI
    let entry : ActiveOp :=
      { category := category, operation_name := operation_name,
        start_time := tA, metadata := metadata }
    (Except.ok operation_id,
      { s1 with active_operations := dictInsert operation_id entry s1.active_operations })
  else
    (Except.error ("Invalid category " ++ category), s)

/-- `Instrumentor.end_operation`; `end_time` is the `time.time()` reading.
An id absent from `active_operations` is a silent no-op.  The
`if self.start_time` truthiness tests on the relative timestamps are modelled
exactly (`none` and `some 0` both take the fallback branch). -/
def end_operation (operation_id : String) (end_time : ℚ) (s : Instrumentor) :
    Instrumentor :=
  match dictGet operation_id s.active_operations with
  | none => s
  | some op =>
    let start_time := op.start_time
    let duration := end_time - start_time
    let record : OperationRecord :=
      { category := op.category
        operation_name := op.operation_name
        start_time := start_time
        end_time := end_time
        duration := duration
        relative_start :=
          match s.start_time with
          | some st => if st = 0 then 0 else start_time - st
          | none => 0
        relative_end :=
          match s.start_time with
          | some st => if st = 0 then duration else end_time - st
          | none => duration
        metadata := op.metadata }
    let agg := s.aggregates op.category
    { s with
      active_operations := dictRemove operation_id s.active_operations
      operations := s.operations ++ [record]
      aggregates := fun c =>
        if c = op.category then
          { total_time := agg.total_time + duration
            count := agg.count + 1
            min_time := min agg.min_time ((duration : ℚ) : WithTop ℚ)
            max_time := max agg.max_time duration }
        else s.aggregates c }

/-- The record `end_operation` appends for an active id (named here so the
lemmas below can refer to it; it is literally the `operation_record` dict of
the source, with `start` the session's `start_time`). -/
def endRecord (op : ActiveOp) (end_time : ℚ) (start : Option ℚ) :
    OperationRecord :=
  { category := op.category
    operation_name := op.operation_name
    start_time := op.start_time
    end_time := end_time
    duration := end_time - op.start_time
    relative_start :=
      match start with
      | some st => if st = 0 then 0 else op.start_time - st
      | none => 0
    relative_end :=
      match start with
      | some st => if st = 0 then end_time - op.start_time else end_time - st
      | none => end_time - op.start_time
    metadata := op.metadata }

/-- Comparison used by Python's `intervals.sort()` on pairs: lexicographic. -/
def lexLe (a b : ℚ × ℚ) : Bool :=
  decide (a.1 < b.1) || (decide (a.1 = b.1) && decide (a.2 ≤ b.2))

/-- One iteration of the merge loop in `_calculate_timeline_coverage`:
`if merged and start <= merged[-1][1]: merged[-1] = (merged[-1][0], max(merged[-1][1], end))
else: merged.append((start, end))`. -/
def mergeStep (merged : List (ℚ × ℚ)) (iv : ℚ × ℚ) : List (ℚ × ℚ) :=
  match merged.getLast? with
  | some last =>
    if iv.1 ≤ last.2 then
      merged.dropLast ++ [(last.1, max last.2 iv.2)]
    else
      merged ++ [iv]
  | none => [iv]

/-- The whole merge loop (`merged` starts empty). -/
def mergeIntervals (intervals : List (ℚ × ℚ)) : List (ℚ × ℚ) :=
  intervals.foldl mergeStep []

/-- `sum(end - start for start, end in merged)`. -/
def sumLen (l : List (ℚ × ℚ)) : ℚ := (l.map (fun p => p.2 - p.1)).sum

/-- `Instrumentor._calculate_timeline_coverage` over a given completed log. -/
def calculate_timeline_coverage (ops : List OperationRecord) (category : String)
    (session_duration : ℚ) : ℚ :=
  if session_duration ≤ 0 then 0
  else
    let category_ops := ops.filter (fun op => op.category == category)
    if category_ops.isEmpty then 0
    else
      let intervals := category_ops.map (fun op => (op.relative_start, op.relative_end))
      let sorted := intervals.mergeSort lexLe
      let merged := mergeIntervals sorted
      let total_coverage := sumLen merged
      round2 (total_coverage / session_duration * 100)

/-- `time.time() - self.start_time if self.start_time else 0` (truthiness). -/
def sessionDuration (now : ℚ) (start_time : Option ℚ) : ℚ :=
  match start_time with
  | none => 0
  | some st => if st = 0 then 0 else now - st

/-- The per-category statistics dict built inside `get_summary`. -/
def categoryStats (agg : Aggregate) (session_duration : ℚ)
    (ops : List OperationRecord) (category : String) :
    List (String × WithTop ℚ) :=
  if 0 < agg.count then
    let cumulative_percentage : ℚ :=
      if 0 < session_duration then
        round2 (agg.total_time / session_duration * 100)
      else 0
    let timeline_percentage : ℚ :=
      calculate_timeline_coverage ops category session_duration
    [("total_time", ((round3 agg.total_time : ℚ) : WithTop ℚ)),
     ("count", (((agg.count : ℚ) : ℚ) : WithTop ℚ)),
     ("average_time", ((round3 (agg.total_time / (agg.count : ℚ)) : ℚ) : WithTop ℚ)),
     ("min_time", agg.min_time.map round3),
     ("max_time", ((round3 agg.max_time : ℚ) : WithTop ℚ)),
     ("cumulative_percentage", ((cumulative_percentage : ℚ) : WithTop ℚ)),
     ("timeline_percentage", ((timeline_percentage : ℚ) : WithTop ℚ))]
  else
    [("total_time", ((0 : ℚ) : WithTop ℚ)),
     ("count", ((0 : ℚ) : WithTop ℚ)),
     ("average_time", ((0 : ℚ) : WithTop ℚ)),
     ("min_time", ((0 : ℚ) : WithTop ℚ)),
     ("max_time", ((0 : ℚ) : WithTop ℚ)),
     ("cumulative_percentage", ((0 : ℚ) : WithTop ℚ)),
     ("timeline_percentage", ((0 : ℚ) : WithTop ℚ))]

/-- The result of `Instrumentor.get_summary`. -/
structure Summary where
  session_duration : ℚ
  total_operations : ℕ
  categories : List (String × List (String × WithTop ℚ))

/-- `Instrumentor.get_summary`; `now` is the `time.time()` reading. -/
def get_summary (now : ℚ) (s : Instrumentor) : Summary :=
  let dur := sessionDuration now s.start_time
  { session_duration := dur
    total_operations := s.operations.length
    categories :=
      CATEGORIES.map (fun cat =>
        (cat, categoryStats (s.aggregates cat) dur s.operations cat)) }

/-- The interval sweep exactly as the spec words it: keep a current merged
interval, absorb the next interval whenever its start is `≤` the current
merged interval's end (taking the max of the ends), otherwise emit the
current interval and start a new one. -/
def sweepMerge (cur : ℚ × ℚ) : List (ℚ × ℚ) → List (ℚ × ℚ)
  | [] => [cur]
  | iv :: rest =>
    if iv.1 ≤ cur.2 then sweepMerge (cur.1, max cur.2 iv.2) rest
    else cur :: sweepMerge iv rest

/-- Timeline coverage as described by the spec: collect the relative intervals
of the category's completed records, sort ascending by start (ties by end),
sweep once merging touching-or-overlapping intervals, and sum the merged
lengths. -/
def specTimelineCoverage (ops : List OperationRecord) (category : String) : ℚ :=
  let intervals :=
    (ops.filter (fun op => op.category == category)).map
      (fun op => (op.relative_start, op.relative_end))
  match intervals.mergeSort lexLe with
  | [] => 0
  | x :: xs => sumLen (sweepMerge x xs)

/-- `a`'s closed interval does not meet `b`'s open interior
(for intervals with `fst ≤ snd`). -/
def NoTouchInterior (a b : ℚ × ℚ) : Prop :=
  ¬(b.1 < b.2 ∧ b.1 < a.2 ∧ a.1 < b.2)

/-- Neither interval meets the other's interior: the claims' notion of
pairwise non-overlapping records. -/
def IntervalsSeparated (a b : ℚ × ℚ) : Prop :=
  NoTouchInterior a b ∧ NoTouchInterior b a

instance : DecidablePred fun p : (ℚ × ℚ) × ℚ × ℚ => IntervalsSeparated p.1 p.2 := by
  intro p
  unfold IntervalsSeparated NoTouchInterior
  infer_instance

/-- The field access the export/visualization consumers perform on a category
statistics object: `stats['percentage']` in `example.py` (`main`) and in
`visualize_metrics.py` (`plot_detailed_statistics`, `print_text_summary`).
A `none` result models the `KeyError` that access raises. -/
def consumerReadsPercentage (stats : List (String × WithTop ℚ)) :
    Option (WithTop ℚ) :=
  dictGet "percentage" stats

end Instrumentor

/-- The public mutating operations, each carrying its `time.time()` readings.
`trackOperation` is the `track_operation` context manager: `start_operation`
followed (in its `finally`) by `end_operation` on the returned id; when
`start_operation` raises, no operation was started and nothing is ended.
The read-only queries (`get_summary` etc.) do not change the state and so
have no event. -/
inductive Event where
  | reset
  | startSession (t : ℚ)
  | startOperation (category operation_name : String) (metadata : Metadata)
      (tS tI tA : ℚ)
  | endOperation (operation_id : String) (t : ℚ)
  | trackOperation (category operation_name : String) (metadata : Metadata)
      (tS tI tA tE : ℚ)

/-- The state transition of one event. -/
def Event.step (e : Event) (s : Instrumentor) : Instrumentor :=
  match e with
  | .reset => s.reset
  | .startSession t => Instrumentor.start_session t s
  | .startOperation cat name md tS tI tA =>
    (Instrumentor.start_operation cat name md tS tI tA s).2
  | .endOperation id t => Instrumentor.end_operation id t s
  | .trackOperation cat name md tS tI tA tE =>
    match Instrumentor.start_operation cat name md tS tI tA s with
    | (Except.ok id, s1) => Instrumentor.end_operation id tE s1
    | (Except.error _, s1) => s1

/-- The clock readings an event consumes, in program order. -/
def Event.clockReads : Event → List ℚ
  | .reset => []
  | .startSession t => [t]
  | .startOperation _ _ _ tS tI tA => [tS, tI, tA]
  | .endOperation _ t => [t]
  | .trackOperation _ _ _ tS tI tA tE => [tS, tI, tA, tE]

/-- Run a sequence of public operations from the freshly initialized state. -/
def runEvents (events : List Event) : Instrumentor :=
  events.foldl (fun s e => e.step s) initialState

/-- The last clock reading an event consumes (`dflt` when it consumes none). -/
def Event.lastClock : Event → ℚ → ℚ
  | .reset, d => d
  | .startSession t, _ => t
  | .startOperation _ _ _ _ _ tA, _ => tA
  | .endOperation _ t, _ => t
  | .trackOperation _ _ _ _ _ _ tE, _ => tE

/-- Clock-independent bookkeeping invariants of the session state: each
category's aggregate `count` and `total_time` agree with the completed log,
each record's relative interval has length `duration`, and a cleared
`start_time` means a cleared log and active map. -/
def StateConsistent (s : Instrumentor) : Prop :=
  (∀ c, (s.aggregates c).count
      = (s.operations.filter (fun r => r.category == c)).length)
  ∧ (∀ c, (s.aggregates c).total_time
      = ((s.operations.filter (fun r => r.category == c)).map
          (fun r => r.duration)).sum)
  ∧ (∀ r ∈ s.operations, r.relative_end - r.relative_start = r.duration)
  ∧ (s.start_time = none → s.operations = [] ∧ s.active_operations = [])

/-- Facts maintained while the clock readings seen so far are all `≤ now`:
the session start, every in-flight start stamp, and every record's relative
interval are bounded by the relevant clock readings. -/
def ClockInv (s : Instrumentor) (now : ℚ) : Prop :=
  (∀ st, s.start_time = some st → st ≤ now)
  ∧ (∀ p ∈ s.active_operations,
      (∃ st, s.start_time = some st ∧ st ≤ p.2.start_time)
      ∧ p.2.start_time ≤ now)
  ∧ (∀ r ∈ s.operations,
      0 ≤ r.relative_start ∧ r.relative_start ≤ r.relative_end
      ∧ ∀ st, s.start_time = some st → r.relative_end ≤ now - st)

/-- Facts maintained when every clock reading is positive (as `time.time()`
is): the session start stamp is positive, and every completed record's
relative timestamps were computed against the current (set) `start_time`. -/
def PosClockState (s : Instrumentor) : Prop :=
  (∀ st, s.start_time = some st → 0 < st)
  ∧ (s.start_time = none → s.operations = [] ∧ s.active_operations = [])
  ∧ (∀ r ∈ s.operations, ∃ st, s.start_time = some st
      ∧ r.relative_start = r.start_time - st
      ∧ r.relative_end = r.end_time - st)

namespace Instrumentor

theorem foldl_mergeStep_concat (rest : List (ℚ × ℚ)) :
    ∀ (pre : List (ℚ × ℚ)) (cur : ℚ × ℚ),
      rest.foldl mergeStep (pre ++ [cur]) = pre ++ sweepMerge cur rest := by
  induction rest with
  | nil => intro pre cur; simp [sweepMerge]
  | cons iv rest ih =>
    intro pre cur
    by_cases h : iv.1 ≤ cur.2
    · have hstep : mergeStep (pre ++ [cur]) iv
          = pre ++ [(cur.1, max cur.2 iv.2)] := by
        simp [mergeStep, List.getLast?_concat, h]
      simp only [List.foldl_cons, hstep, ih, sweepMerge, if_pos h]
    · have hstep : mergeStep (pre ++ [cur]) iv = (pre ++ [cur]) ++ [iv] := by
        simp [mergeStep, List.getLast?_concat, h]
      have h2 := ih (pre ++ [cur]) iv
      simp only [List.foldl_cons, hstep, sweepMerge, if_neg h]
      simpa using h2

/-- The source's merge loop is the spec's sweep. -/
theorem mergeIntervals_eq_sweepMerge (x : ℚ × ℚ) (xs : List (ℚ × ℚ)) :
    mergeIntervals (x :: xs) = sweepMerge x xs := by
  have h0 : mergeStep [] x = [] ++ [x] := by simp [mergeStep]
  simpa [mergeIntervals, h0] using foldl_mergeStep_concat xs [] x

theorem sweepMerge_sumLen_nonneg (rest : List (ℚ × ℚ)) :
    ∀ cur : ℚ × ℚ, cur.1 ≤ cur.2 → (∀ iv ∈ rest, iv.1 ≤ iv.2) →
      0 ≤ sumLen (sweepMerge cur rest) := by
  induction rest with
  | nil => intro cur h _; simp [sweepMerge, sumLen]; linarith
  | cons iv rest ih =>
    intro cur hcur hall
    by_cases h : iv.1 ≤ cur.2
    · simp only [sweepMerge, if_pos h]
      refine ih (cur.1, max cur.2 iv.2) ?_ fun a ha => hall a (List.mem_cons_of_mem _ ha)
      exact le_trans hcur (le_max_left _ _)
    · simp only [sweepMerge, if_neg h, sumLen, List.map_cons, List.sum_cons]
      have h1 : 0 ≤ sumLen (sweepMerge iv rest) :=
        ih iv (hall iv (List.mem_cons_self _ _))
          (fun a ha => hall a (List.mem_cons_of_mem _ ha))
      have h2 : (0 : ℚ) ≤ cur.2 - cur.1 := by linarith
      simpa [sumLen] using add_nonneg h2 h1

theorem sweepMerge_sumLen_le (rest : List (ℚ × ℚ)) :
    ∀ (cur : ℚ × ℚ) (D : ℚ), cur.1 ≤ cur.2 → cur.2 ≤ D →
      (∀ iv ∈ rest, cur.1 ≤ iv.1 ∧ iv.1 ≤ iv.2 ∧ iv.2 ≤ D) →
      rest.Pairwise (fun a b => a.1 ≤ b.1) →
      sumLen (sweepMerge cur rest) ≤ D - cur.1 := by
  induction rest with
  | nil => intro cur D h hD _ _; simp [sweepMerge, sumLen]; linarith
  | cons iv rest ih =>
    intro cur D hcur hD hall hsorted
    rw [List.pairwise_cons] at hsorted
    by_cases h : iv.1 ≤ cur.2
    · simp only [sweepMerge, if_pos h]
      have hD2 : max cur.2 iv.2 ≤ D :=
        max_le hD (hall iv (List.mem_cons_self _ _)).2.2
      refine ih (cur.1, max cur.2 iv.2) D (le_trans hcur (le_max_left _ _)) hD2
        (fun a ha => hall a (List.mem_cons_of_mem _ ha)) hsorted.2
    · simp only [sweepMerge, if_neg h, sumLen, List.map_cons, List.sum_cons]
      have hle : cur.2 < iv.1 := lt_of_not_le h
      have hiv := hall iv (List.mem_cons_self _ _)
      have h1 : sumLen (sweepMerge iv rest) ≤ D - iv.1 := by
        refine ih iv D hiv.2.1 hiv.2.2 ?_ hsorted.2
        intro a ha
        exact ⟨hsorted.1 a ha, (hall a (List.mem_cons_of_mem _ ha)).2.1,
          (hall a (List.mem_cons_of_mem _ ha)).2.2⟩
      have : sumLen (sweepMerge iv rest) ≤ D - iv.1 := h1
      simp only [sumLen] at this ⊢
      linarith

theorem intervalsSeparated_symm : ∀ {a b : ℚ × ℚ},
    IntervalsSeparated a b → IntervalsSeparated b a :=
  fun h => ⟨h.2, h.1⟩

theorem sweepMerge_sumLen_eq (rest : List (ℚ × ℚ)) :
    ∀ cur e : ℚ × ℚ, e.2 = cur.2 → e.1 ≤ e.2 → cur.1 ≤ cur.2 →
      (∀ iv ∈ rest, e.1 ≤ iv.1) →
      (∀ iv ∈ rest, iv.1 ≤ iv.2) →
      rest.Pairwise (fun a b => a.1 ≤ b.1) →
      (∀ iv ∈ rest, IntervalsSeparated e iv) →
      rest.Pairwise IntervalsSeparated →
      sumLen (sweepMerge cur rest) = (cur.2 - cur.1) + sumLen rest := by
  induction rest with
  | nil => intro cur e _ _ _ _ _ _ _ _; simp [sweepMerge, sumLen]
  | cons n rest ih =>
    intro cur e he2 helen hcur hall hlen hsorted hsep hpw
    rw [List.pairwise_cons] at hsorted hpw
    have hn12 : n.1 ≤ n.2 := hlen n (List.mem_cons_self _ _)
    by_cases hmerge : n.1 ≤ cur.2
    · -- the head is absorbed into the current merged interval
      have hD : n.1 = cur.2 ∨ (n.1 = n.2 ∧ n.2 ≤ cur.2) := by
        by_cases hn1 : n.1 = cur.2
        · exact Or.inl hn1
        · have hlt : n.1 < cur.2 := lt_of_le_of_ne hmerge hn1
          by_cases hee : e.1 < e.2
          · have hnt := (hsep n (List.mem_cons_self _ _)).2
            unfold NoTouchInterior at hnt
            push_neg at hnt
            have h1 : n.2 ≤ e.1 := by
              by_contra hcon
              push_neg at hcon
              exact absurd (he2 ▸ hlt) (by simpa using hnt hee hcon)
            have h2 : e.1 ≤ n.1 := hall n (List.mem_cons_self _ _)
            have h3 : n.1 = n.2 := le_antisymm hn12 (le_trans h1 h2)
            exact Or.inr ⟨h3, le_trans h1 (le_trans (le_of_lt hee) (le_of_eq he2))⟩
          · have hee' : e.1 = e.2 := le_antisymm helen (le_of_not_lt hee)
            have h2 : e.1 ≤ n.1 := hall n (List.mem_cons_self _ _)
            rw [hee', he2] at h2
            exact absurd hlt (not_lt_of_le h2)
      have hmax : max cur.2 n.2 - cur.1 = (cur.2 - cur.1) + (n.2 - n.1) := by
        rcases hD with h | ⟨h1, h2⟩
        · have : cur.2 ≤ n.2 := h ▸ hn12
          rw [max_eq_right this]; linarith
        · rw [max_eq_left (h1 ▸ h2)]; linarith
      simp only [sweepMerge, if_pos hmerge]
      have hcur' : (cur.1, max cur.2 n.2).1 ≤ (cur.1, max cur.2 n.2).2 :=
        le_trans hcur (le_max_left _ _)
      by_cases hcase : n.2 ≤ cur.2
      · have hres := ih (cur.1, max cur.2 n.2) e
          (by simpa [max_eq_left hcase] using he2) helen hcur'
          (fun iv hiv => hall iv (List.mem_cons_of_mem _ hiv))
          (fun iv hiv => hlen iv (List.mem_cons_of_mem _ hiv))
          hsorted.2
          (fun iv hiv => hsep iv (List.mem_cons_of_mem _ hiv))
          hpw.2
        rw [hres]
        simp only [sumLen, List.map_cons, List.sum_cons] at *
        linarith
      · have hres := ih (cur.1, max cur.2 n.2) n
          (by simp [max_eq_right (le_of_not_le hcase)]) hn12 hcur'
          (fun iv hiv => hsorted.1 iv hiv)
          (fun iv hiv => hlen iv (List.mem_cons_of_mem _ hiv))
          hsorted.2
          (fun iv hiv => hpw.1 iv hiv)
          hpw.2
        rw [hres]
        simp only [sumLen, List.map_cons, List.sum_cons] at *
        linarith
    · -- a gap: emit the current interval and restart from the head
      simp only [sweepMerge, if_neg hmerge]
      have hres := ih n n rfl hn12 hn12
        (fun iv hiv => hsorted.1 iv hiv)
        (fun iv hiv => hlen iv (List.mem_cons_of_mem _ hiv))
        hsorted.2
        (fun iv hiv => hpw.1 iv hiv)
        hpw.2
      simp only [sumLen, List.map_cons, List.sum_cons] at *
      linarith

/-- For records whose intervals never meet one another's interior, the merged
coverage is exactly the plain sum of the lengths. -/
theorem mergeIntervals_sumLen_of_separated (l : List (ℚ × ℚ))
    (hlen : ∀ iv ∈ l, iv.1 ≤ iv.2)
    (hsorted : l.Pairwise (fun a b => a.1 ≤ b.1))
    (hsep : l.Pairwise IntervalsSeparated) :
    sumLen (mergeIntervals l) = sumLen l := by
  cases l with
  | nil => rfl
  | cons x xs =>
    rw [List.pairwise_cons] at hsorted hsep
    rw [mergeIntervals_eq_sweepMerge]
    have := sweepMerge_sumLen_eq xs x x rfl
      (hlen x (List.mem_cons_self _ _)) (hlen x (List.mem_cons_self _ _))
      (fun iv hiv => hsorted.1 iv hiv)
      (fun iv hiv => hlen iv (List.mem_cons_of_mem _ hiv))
      hsorted.2
      (fun iv hiv => hsep.1 iv hiv)
      hsep.2
    rw [this]
    simp [sumLen]

theorem mergeIntervals_sumLen_nonneg (l : List (ℚ × ℚ))
    (hlen : ∀ iv ∈ l, iv.1 ≤ iv.2) : 0 ≤ sumLen (mergeIntervals l) := by
  cases l with
  | nil => simp [mergeIntervals, sumLen]
  | cons x xs =>
    rw [mergeIntervals_eq_sweepMerge]
    exact sweepMerge_sumLen_nonneg xs x (hlen x (List.mem_cons_self _ _))
      (fun iv hiv => hlen iv (List.mem_cons_of_mem _ hiv))

theorem mergeIntervals_sumLen_le (l : List (ℚ × ℚ)) (D : ℚ) (hD : 0 ≤ D)
    (hin : ∀ iv ∈ l, 0 ≤ iv.1 ∧ iv.1 ≤ iv.2 ∧ iv.2 ≤ D)
    (hsorted : l.Pairwise (fun a b => a.1 ≤ b.1)) :
    sumLen (mergeIntervals l) ≤ D := by
  cases l with
  | nil => simpa [mergeIntervals, sumLen] using hD
  | cons x xs =>
    rw [List.pairwise_cons] at hsorted
    rw [mergeIntervals_eq_sweepMerge]
    have hx := hin x (List.mem_cons_self _ _)
    have h := sweepMerge_sumLen_le xs x D hx.2.1 hx.2.2 ?_ hsorted.2
    · linarith
    · intro iv hiv
      exact ⟨hsorted.1 iv hiv,
        (hin iv (List.mem_cons_of_mem _ hiv)).2.1,
        (hin iv (List.mem_cons_of_mem _ hiv)).2.2⟩

theorem dictGet_eq_none_of_not_mem {α : Type} {k : String}
    {l : List (String × α)} (h : ∀ p ∈ l, p.1 ≠ k) : dictGet k l = none := by
  induction l with
  | nil => rfl
  | cons p rest ih =>
    simp only [dictGet, if_neg (h p (List.mem_cons_self _ _))]
    exact ih fun q hq => h q (List.mem_cons_of_mem _ hq)

theorem dictGet_mem {α : Type} {k : String} {v : α} :
    ∀ {l : List (String × α)}, dictGet k l = some v → (k, v) ∈ l := by
  intro l
  induction l with
  | nil => intro h; simp [dictGet] at h
  | cons p rest ih =>
    intro h
    by_cases hk : p.1 = k
    · simp only [dictGet, if_pos hk, Option.some.injEq] at h
      have hp : p = (k, v) := by
        obtain ⟨p1, p2⟩ := p
        simp only [Prod.mk.injEq]
        exact ⟨hk, h⟩
      rw [← hp]
      exact List.mem_cons_self _ _
    · simp only [dictGet, if_neg hk] at h
      exact List.mem_cons_of_mem _ (ih h)

theorem dictGet_dictRemove_self {α : Type} (k : String) (l : List (String × α)) :
    dictGet k (dictRemove k l) = none := by
  refine dictGet_eq_none_of_not_mem ?_
  intro p hp
  have := List.of_mem_filter hp
  simpa using this

theorem mem_dictRemove {α : Type} {k : String} {p : String × α}
    {l : List (String × α)} (h : p ∈ dictRemove k l) : p ∈ l :=
  List.mem_of_mem_filter h

theorem mem_dictInsert {α : Type} {k : String} {v : α} {p : String × α}
    {l : List (String × α)} (h : p ∈ dictInsert k v l) :
    p = (k, v) ∨ p ∈ l := by
  unfold dictInsert at h
  by_cases hs : (dictGet k l).isSome
  · rw [if_pos hs] at h
    obtain ⟨q, hq, hpq⟩ := List.mem_map.mp h
    by_cases hqk : q.1 = k
    · left; rw [← hpq, if_pos hqk]
    · right; rw [← hpq, if_neg hqk]; exact hq
  · rw [if_neg hs] at h
    rcases List.mem_append.mp h with h1 | h1
    · right; exact h1
    · left; simpa using h1

theorem dictGet_overwrite {α : Type} (k : String) (v : α) :
    ∀ l : List (String × α),
      dictGet k (l.map (fun p => if p.1 = k then (k, v) else p))
        = if (dictGet k l).isSome then some v else none := by
  intro l
  induction l with
  | nil => simp [dictGet]
  | cons p rest ih =>
    by_cases hk : p.1 = k
    · simp [dictGet, hk]
    · simp only [List.map_cons, if_neg hk, dictGet, ih]

theorem dictGet_append_single {α : Type} (k k' : String) (v : α) :
    ∀ l : List (String × α),
      dictGet k' (l ++ [(k, v)])
        = match dictGet k' l with
          | some w => some w
          | none => if k = k' then some v else none := by
  intro l
  induction l with
  | nil => simp [dictGet]
  | cons p rest ih =>
    by_cases hp : p.1 = k'
    · simp [dictGet, hp]
    · simp only [List.cons_append, dictGet, if_neg hp]
      rw [List.append_eq]
      exact ih

theorem dictGet_overwrite_ne {α : Type} {k k' : String} (hne : k' ≠ k) (v : α) :
    ∀ l : List (String × α),
      dictGet k' (l.map (fun p => if p.1 = k then (k, v) else p))
        = dictGet k' l := by
  intro l
  induction l with
  | nil => simp [dictGet]
  | cons p rest ih =>
    by_cases hk : p.1 = k
    · have hp : p.1 ≠ k' := by rw [hk]; exact fun h => hne h.symm
      have hkk : ¬(k = k') := fun h => hne h.symm
      simp only [List.map_cons, if_pos hk, dictGet, if_neg hp, if_neg hkk, ih]
    · simp only [List.map_cons, if_neg hk, dictGet]
      by_cases hp : p.1 = k'
      · simp [if_pos hp]
      · simp only [if_neg hp, ih]

theorem dictGet_dictInsert_self {α : Type} (k : String) (v : α)
    (l : List (String × α)) : dictGet k (dictInsert k v l) = some v := by
  unfold dictInsert
  by_cases hs : (dictGet k l).isSome
  · rw [if_pos hs, dictGet_overwrite, if_pos hs]
  · rw [if_neg hs, dictGet_append_single]
    rw [Option.not_isSome_iff_eq_none] at hs
    simp [hs]

theorem dictGet_dictInsert_ne {α : Type} {k k' : String} (v : α)
    (l : List (String × α)) (hne : k' ≠ k) :
    dictGet k' (dictInsert k v l) = dictGet k' l := by
  unfold dictInsert
  by_cases hs : (dictGet k l).isSome
  · rw [if_pos hs]
    exact dictGet_overwrite_ne hne v l
  · rw [if_neg hs, dictGet_append_single]
    have hkk : ¬(k = k') := fun h => hne h.symm
    cases hget : dictGet k' l with
    | none => simp [hkk]
    | some w => simp

/-- What `start_operation` computes on a valid category when no session is
running: implicit `start_session`, then registration of the new entry. -/
theorem start_operation_none_eq {category : String} (operation_name : String)
    (metadata : Metadata) (tS tI tA : ℚ) {s : Instrumentor}
    (hcat : category ∈ CATEGORIES) (hst : s.start_time = none) :
    start_operation category operation_name metadata tS tI tA s
      = (Except.ok (mkOperationId category operation_name tI),
         { operations := []
           active_operations :=
             dictInsert (mkOperationId category operation_name tI)
               ({ category := category, operation_name := operation_name,
                  start_time := tA, metadata := metadata } : ActiveOp) []
           aggregates := fun _ => initialAggregate
           start_time := some tS }) := by
  unfold start_operation start_session reset initialState
  rw [if_pos hcat, hst]

/-- What `start_operation` computes on a valid category when a session is
already running. -/
theorem start_operation_some_eq {category : String} (operation_name : String)
    (metadata : Metadata) (tS tI tA : ℚ) {s : Instrumentor} {st : ℚ}
    (hcat : category ∈ CATEGORIES) (hst : s.start_time = some st) :
    start_operation category operation_name metadata tS tI tA s
      = (Except.ok (mkOperationId category operation_name tI),
         { s with
           active_operations :=
             dictInsert (mkOperationId category operation_name tI)
               ({ category := category, operation_name := operation_name,
                  start_time := tA, metadata := metadata } : ActiveOp)
               s.active_operations }) := by
  unfold start_operation
  rw [if_pos hcat]
  conv_lhs => rw [hst]

/-- What `start_operation` computes on an invalid category: the raise,
with nothing mutated. -/
theorem start_operation_not_mem_eq {category : String} (operation_name : String)
    (metadata : Metadata) (tS tI tA : ℚ) (s : Instrumentor)
    (hcat : category ∉ CATEGORIES) :
    start_operation category operation_name metadata tS tI tA s
      = (Except.error ("Invalid category " ++ category), s) := by
  unfold start_operation
  rw [if_neg hcat]

/-- What `end_operation` computes on an active id. -/
theorem end_operation_some_eq {operation_id : String} {t : ℚ}
    {s : Instrumentor} {op : ActiveOp}
    (hget : dictGet operation_id s.active_operations = some op) :
    end_operation operation_id t s
      = { s with
          active_operations := dictRemove operation_id s.active_operations
          operations := s.operations ++ [endRecord op t s.start_time]
          aggregates := fun c =>
            if c = op.category then
              { total_time := (s.aggregates op.category).total_time
                  + (t - op.start_time)
                count := (s.aggregates op.category).count + 1
                min_time := min (s.aggregates op.category).min_time
                  ((t - op.start_time : ℚ) : WithTop ℚ)
                max_time := max (s.aggregates op.category).max_time
                  (t - op.start_time) }
            else s.aggregates c } := by
  unfold end_operation endRecord
  rw [hget]

/-- `end_operation` on an id that is not in the active map returns the state
untouched (the early `return` of the source). -/
theorem end_operation_not_active {operation_id : String} {t : ℚ}
    {s : Instrumentor} (h : dictGet operation_id s.active_operations = none) :
    end_operation operation_id t s = s := by
  simp [end_operation, h]

theorem end_operation_removes_id (operation_id : String) (t : ℚ)
    (s : Instrumentor) :
    dictGet operation_id (end_operation operation_id t s).active_operations
      = none := by
  unfold end_operation
  cases hget : dictGet operation_id s.active_operations with
  | none => exact hget
  | some op => exact dictGet_dictRemove_self _ _

theorem dictGet_map_fn {α : Type} (f : String → α) :
    ∀ (cs : List String) (k : String) (v : α),
      dictGet k (cs.map fun c => (c, f c)) = some v → v = f k := by
  intro cs
  induction cs with
  | nil => intro k v h; simp [dictGet] at h
  | cons c rest ih =>
    intro k v h
    by_cases hc : c = k
    · simp only [List.map_cons, dictGet, if_pos hc, Option.some.injEq] at h
      rw [← h, hc]
    · simp only [List.map_cons, dictGet, if_neg hc] at h
      exact ih k v h

end Instrumentor

namespace Instrumentor

/-- C1: for every completed-operation log, category, and session_duration > 0,
the timeline coverage computed by `_calculate_timeline_coverage` (the value
`get_summary` reports) equals `round2` of `100 * C / session_duration`, where
`C` is the spec's sweep: sort the category's `(relative_start, relative_end)`
pairs ascending by start and merge an interval into the current merged one
exactly when its start is ≤ the current merged end; moreover `[0,5]` and
`[5,10]` merge into one interval of length 10 while `[0,5]` and `[6,10]` stay
separate with total length 9. -/
theorem coverage_merge_algorithm (ops : List OperationRecord)
    (category : String) (session_duration : ℚ)
    (hdur : 0 < session_duration) :
    calculate_timeline_coverage ops category session_duration
      = round2 (100 * specTimelineCoverage ops category / session_duration)
    ∧ mergeIntervals [(0, 5), (5, 10)] = [(0, 10)]
    ∧ sumLen (mergeIntervals [(0, 5), (5, 10)]) = 10
    ∧ mergeIntervals [(0, 5), (6, 10)] = [(0, 5), (6, 10)]
    ∧ sumLen (mergeIntervals [(0, 5), (6, 10)]) = 9 := by
  refine ⟨?_, by decide, by norm_num [mergeIntervals, mergeStep, sumLen],
    by decide, by norm_num [mergeIntervals, mergeStep, sumLen]⟩
  unfold calculate_timeline_coverage specTimelineCoverage
  rw [if_neg (not_le.mpr hdur)]
  by_cases hemp : (ops.filter (fun op => op.category == category)).isEmpty
  · have h0 : (ops.filter (fun op => op.category == category)) = [] :=
      List.isEmpty_iff.mp hemp
    rw [if_pos hemp]
    simp only [h0, List.map_nil, List.mergeSort_nil]
    norm_num [round2]
  · rw [if_neg hemp]
    have h0 : (ops.filter (fun op => op.category == category)) ≠ [] :=
      fun h => hemp (by simp [h])
    have hne :
        ((ops.filter (fun op => op.category == category)).map
          (fun op => (op.relative_start, op.relative_end))).mergeSort lexLe
          ≠ [] := by
      intro h
      have hlen := (List.mergeSort_perm
        ((ops.filter (fun op => op.category == category)).map
          (fun op => (op.relative_start, op.relative_end))) lexLe).length_eq
      rw [h] at hlen
      simp only [List.length_nil, List.length_map] at hlen
      exact h0 (List.length_eq_zero.mp hlen.symm)
    cases hsort :
        ((ops.filter (fun op => op.category == category)).map
          (fun op => (op.relative_start, op.relative_end))).mergeSort lexLe with
    | nil => exact absurd hsort hne
    | cons x xs =>
      simp only [hsort, mergeIntervals_eq_sweepMerge]
      congr 1
      field_simp
      ring

/-- C1 witness: the theorem applied at a concrete log and duration. -/
theorem coverage_merge_algorithm_witness :
    (0 : ℚ) < 10
    ∧ calculate_timeline_coverage [] "llm_calls" 10
        = round2 (100 * specTimelineCoverage [] "llm_calls" / 10) :=
  ⟨by norm_num, (coverage_merge_algorithm [] "llm_calls" 10 (by norm_num)).1⟩

/-- C3: `end_operation` with an id absent from the active map raises no error
and leaves the whole state unchanged, and a second `end_operation` on the same
id is always a no-op (aggregates and the completed log are updated exactly
once). -/
theorem end_operation_stale_noop (operation_id : String) (t t' : ℚ)
    (s : Instrumentor) :
    (dictGet operation_id s.active_operations = none →
      end_operation operation_id t s = s)
    ∧ end_operation operation_id t'
        (end_operation operation_id t s) = end_operation operation_id t s := by
  constructor
  · intro h
    exact end_operation_not_active h
  · exact end_operation_not_active (end_operation_removes_id operation_id t s)

/-- C3 witness: a fabricated id on the fresh state. -/
theorem end_operation_stale_noop_witness :
    dictGet "ghost" initialState.active_operations = none
    ∧ end_operation "ghost" 1 initialState = initialState
    ∧ end_operation "ghost" 2 (end_operation "ghost" 1 initialState)
        = end_operation "ghost" 1 initialState :=
  ⟨rfl, (end_operation_stale_noop "ghost" 1 2 initialState).1 rfl,
    (end_operation_stale_noop "ghost" 1 2 initialState).2⟩

/-- C4: `start_operation` errors exactly when the category is outside the
fixed six-element set; on error the state is untouched (no implicit session,
no active entry); on success with no session running it first starts one
(`start_time` becomes the clock reading, the old state is discarded by the
implicit `start_session`), and it always registers exactly one entry under
the returned id: that id maps to the new record and every other id maps to
what it mapped to before. -/
theorem start_operation_invalid_category (category operation_name : String)
    (metadata : Metadata) (tS tI tA : ℚ) (s : Instrumentor) :
    (((start_operation category operation_name metadata tS tI tA s).1.isOk
        = false) ↔ category ∉ CATEGORIES)
    ∧ (category ∉ CATEGORIES →
        (start_operation category operation_name metadata tS tI tA s).2 = s)
    ∧ (category ∈ CATEGORIES →
        (start_operation category operation_name metadata tS tI tA s).1
          = Except.ok (mkOperationId category operation_name tI)
        ∧ (start_operation category operation_name metadata tS tI tA s).2.active_operations
            = dictInsert (mkOperationId category operation_name tI)
                ⟨category, operation_name, tA, metadata⟩
                (match s.start_time with
                  | none => []
                  | some _ => s.active_operations)
        ∧ (s.start_time = none →
            (start_operation category operation_name metadata tS tI tA s).2.start_time
              = some tS)
        ∧ dictGet (mkOperationId category operation_name tI)
            (start_operation category operation_name metadata tS tI tA s).2.active_operations
            = some ⟨category, operation_name, tA, metadata⟩
        ∧ ∀ k, k ≠ mkOperationId category operation_name tI →
            dictGet k
              (start_operation category operation_name metadata tS tI tA s).2.active_operations
              = dictGet k (match s.start_time with
                  | none => []
                  | some _ => s.active_operations)) := by
  by_cases hcat : category ∈ CATEGORIES
  · cases hst : s.start_time with
    | none =>
      rw [start_operation_none_eq operation_name metadata tS tI tA hcat hst]
      refine ⟨by simp [Except.isOk, Except.toBool, hcat], fun h => absurd hcat h,
        fun _ => ?_⟩
      exact ⟨rfl, rfl, fun _ => rfl,
        dictGet_dictInsert_self (mkOperationId category operation_name tI)
          ({ category := category, operation_name := operation_name,
             start_time := tA, metadata := metadata } : ActiveOp) [],
        fun k hk => dictGet_dictInsert_ne
          ({ category := category, operation_name := operation_name,
             start_time := tA, metadata := metadata } : ActiveOp) [] hk⟩
    | some st =>
      rw [start_operation_some_eq operation_name metadata tS tI tA hcat hst]
      refine ⟨by simp [Except.isOk, Except.toBool, hcat], fun h => absurd hcat h,
        fun _ => ?_⟩
      exact ⟨rfl, rfl, fun h => Option.noConfusion h,
        dictGet_dictInsert_self (mkOperationId category operation_name tI)
          ({ category := category, operation_name := operation_name,
             start_time := tA, metadata := metadata } : ActiveOp)
          s.active_operations,
        fun k hk => dictGet_dictInsert_ne
          ({ category := category, operation_name := operation_name,
             start_time := tA, metadata := metadata } : ActiveOp)
          s.active_operations hk⟩
  · rw [start_operation_not_mem_eq operation_name metadata tS tI tA s hcat]
    exact ⟨by simp [Except.isOk, Except.toBool, hcat], fun _ => rfl,
      fun h => absurd h hcat⟩

/-- C4 witness: an invalid category is rejected without touching the state,
and a valid one on the fresh state returns an ok id. -/
theorem start_operation_invalid_category_witness :
    ("bogus" ∉ CATEGORIES
      ∧ (start_operation "bogus" "op" [] 1 2 3 initialState).2 = initialState)
    ∧ ("llm_calls" ∈ CATEGORIES
      ∧ (start_operation "llm_calls" "op" [] 1 2 3 initialState).1
          = Except.ok (mkOperationId "llm_calls" "op" 2)) :=
  ⟨⟨by decide,
    (start_operation_invalid_category "bogus" "op" [] 1 2 3 initialState).2.1
      (by decide)⟩,
   ⟨by decide,
    ((start_operation_invalid_category "llm_calls" "op" [] 1 2 3
      initialState).2.2 (by decide)).1⟩⟩

/-- C5: every per-category statistics object `get_summary` produces has
exactly the keys total_time, count, average_time, min_time, max_time,
cumulative_percentage, timeline_percentage — and no key `percentage`, so the
`stats['percentage']` read performed by `plot_detailed_statistics`,
`print_text_summary` and `example.py`'s `main` finds nothing. -/
theorem summary_stats_keys (s : Instrumentor) (now : ℚ) (cat : String)
    (stats : List (String × WithTop ℚ))
    (h : dictGet cat (get_summary now s).categories = some stats) :
    stats.map Prod.fst
      = ["total_time", "count", "average_time", "min_time", "max_time",
         "cumulative_percentage", "timeline_percentage"]
    ∧ dictGet "percentage" stats = none
    ∧ consumerReadsPercentage stats = none := by
  have hstats : stats = categoryStats (s.aggregates cat)
      (sessionDuration now s.start_time) s.operations cat :=
    dictGet_map_fn
      (fun c => categoryStats (s.aggregates c)
        (sessionDuration now s.start_time) s.operations c) CATEGORIES cat stats h
  rw [hstats]
  unfold categoryStats consumerReadsPercentage
  by_cases hc : 0 < (s.aggregates cat).count
  · rw [if_pos hc]
    refine ⟨by simp, ?_, ?_⟩ <;> simp [dictGet]
  · rw [if_neg hc]
    refine ⟨by simp, ?_, ?_⟩ <;> simp [dictGet]

/-- C5 witness: the fresh state's `llm_calls` statistics object. -/
theorem summary_stats_keys_witness :
    dictGet "llm_calls" (get_summary 0 initialState).categories
        = some (categoryStats initialAggregate 0 [] "llm_calls")
    ∧ (categoryStats initialAggregate 0 [] "llm_calls").map Prod.fst
        = ["total_time", "count", "average_time", "min_time", "max_time",
           "cumulative_percentage", "timeline_percentage"]
    ∧ dictGet "percentage" (categoryStats initialAggregate 0 [] "llm_calls")
        = none := by
  have h : dictGet "llm_calls" (get_summary 0 initialState).categories
      = some (categoryStats initialAggregate 0 [] "llm_calls") := by
    simp [get_summary, initialState, sessionDuration, CATEGORIES, dictGet]
  have := summary_stats_keys initialState 0 "llm_calls" _ h
  exact ⟨h, this.1, this.2.1⟩

end Instrumentor

section Invariants

open Instrumentor

theorem stateConsistent_initial : StateConsistent initialState := by
  refine ⟨fun c => rfl, fun c => rfl, ?_, fun _ => ⟨rfl, rfl⟩⟩
  intro r hr
  simp [initialState] at hr

theorem stateConsistent_reset (s : Instrumentor) : StateConsistent (reset s) :=
  stateConsistent_initial

theorem stateConsistent_start_session (t : ℚ) (s : Instrumentor) :
    StateConsistent (start_session t s) := by
  refine ⟨fun c => rfl, fun c => rfl, ?_, fun _ => ⟨rfl, rfl⟩⟩
  intro r hr
  simp [start_session, reset, initialState] at hr

theorem stateConsistent_end_operation (operation_id : String) (t : ℚ)
    (s : Instrumentor) (h : StateConsistent s) :
    StateConsistent (end_operation operation_id t s) := by
  obtain ⟨hcount, htotal, hlen, hnone⟩ := h
  cases hget : dictGet operation_id s.active_operations with
  | none =>
    rw [end_operation_not_active hget]
    exact ⟨hcount, htotal, hlen, hnone⟩
  | some op =>
    rw [end_operation_some_eq hget]
    refine ⟨?_, ?_, ?_, ?_⟩
    · intro c
      by_cases hc : c = op.category
      · simp [hc, List.filter_append, endRecord, hcount op.category]
      · have hc' : ¬(op.category = c) := fun h => hc h.symm
        simp [hc, hc', List.filter_append, endRecord, hcount c]
    · intro c
      by_cases hc : c = op.category
      · simp [hc, List.filter_append, endRecord, htotal op.category]
      · have hc' : ¬(op.category = c) := fun h => hc h.symm
        simp [hc, hc', List.filter_append, endRecord, htotal c]
    · intro r hr
      rcases List.mem_append.mp hr with h1 | h1
      · exact hlen r h1
      · have hr2 : r = endRecord op t s.start_time := by simpa using h1
        subst hr2
        unfold endRecord
        cases s.start_time with
        | none => simp
        | some st =>
          by_cases h0 : st = 0
          · simp [h0]
          · simp [h0]
    · intro h0
      rw [(hnone h0).2] at hget
      exact absurd hget (by simp [dictGet])

theorem stateConsistent_start_operation (category operation_name : String)
    (metadata : Metadata) (tS tI tA : ℚ) (s : Instrumentor)
    (h : StateConsistent s) :
    StateConsistent
      (start_operation category operation_name metadata tS tI tA s).2 := by
  obtain ⟨hcount, htotal, hlen, hnone⟩ := h
  by_cases hcat : category ∈ CATEGORIES
  · cases hst : s.start_time with
    | none =>
      rw [start_operation_none_eq operation_name metadata tS tI tA hcat hst]
      exact ⟨fun c => rfl, fun c => rfl, fun r hr => by simp at hr,
        fun h0 => Option.noConfusion h0⟩
    | some st =>
      rw [start_operation_some_eq operation_name metadata tS tI tA hcat hst]
      refine ⟨hcount, htotal, hlen, fun h0 => ?_⟩
      have h0' : s.start_time = none := h0
      rw [hst] at h0'
      exact Option.noConfusion h0'
  · rw [start_operation_not_mem_eq operation_name metadata tS tI tA s hcat]
    exact ⟨hcount, htotal, hlen, hnone⟩

theorem stateConsistent_step (e : Event) (s : Instrumentor)
    (h : StateConsistent s) : StateConsistent (e.step s) := by
  cases e with
  | reset => exact stateConsistent_initial
  | startSession t => exact stateConsistent_start_session t s
  | startOperation cat name md tS tI tA =>
    exact stateConsistent_start_operation cat name md tS tI tA s h
  | endOperation id t => exact stateConsistent_end_operation id t s h
  | trackOperation cat name md tS tI tA tE =>
    rcases hso : start_operation cat name md tS tI tA s with ⟨res, s1⟩
    have h1 : StateConsistent s1 := by
      have h2 := stateConsistent_start_operation cat name md tS tI tA s h
      rw [hso] at h2
      exact h2
    cases res with
    | ok id =>
      simp only [Event.step, hso]
      exact stateConsistent_end_operation id tE s1 h1
    | error e =>
      simp only [Event.step, hso]
      exact h1

theorem foldl_stateConsistent (events : List Event) :
    ∀ s : Instrumentor, StateConsistent s →
      StateConsistent (events.foldl (fun s e => e.step s) s) := by
  induction events with
  | nil => intro s h; exact h
  | cons e rest ih => intro s h; exact ih _ (stateConsistent_step e s h)

theorem runEvents_stateConsistent (events : List Event) :
    StateConsistent (runEvents events) :=
  foldl_stateConsistent events initialState stateConsistent_initial

end Invariants

namespace Instrumentor

/-- C6: after every sequence of public operations, every category's aggregate
`count` equals the number of completed records of that category; this holds
along the whole run, so every single operation preserves it. -/
theorem count_matches_records (events : List Event) (c : String) :
    ((runEvents events).aggregates c).count
      = ((runEvents events).operations.filter (fun r => r.category == c)).length :=
  (runEvents_stateConsistent events).1 c

end Instrumentor

namespace Instrumentor

theorem dictGet_map_fn_mem {α : Type} (f : String → α) :
    ∀ (cs : List String) (k : String), k ∈ cs →
      dictGet k (cs.map fun c => (c, f c)) = some (f k) := by
  intro cs
  induction cs with
  | nil => intro k hk; exact absurd hk (List.not_mem_nil k)
  | cons c rest ih =>
    intro k hk
    by_cases hc : c = k
    · simp [dictGet, hc]
    · have hk' : k ∈ rest := by
        rcases List.mem_cons.mp hk with h | h
        · exact absurd h.symm hc
        · exact h
      simp only [List.map_cons, dictGet, if_neg hc]
      exact ih k hk'

/-- C7: a summary taken with zero completed operations (in particular right
after `reset`, or before any `start_session`) is the well-formed all-zero
summary: `total_operations = 0`, `session_duration = 0` whenever `start_time`
is unset, and every category reports the all-zero statistics object, its
`min_time` and `max_time` being `0` rather than the `+∞` sentinel the
aggregate was initialized with; no division is performed on this path. -/
theorem empty_session_summary (events : List Event) (now : ℚ)
    (h : (runEvents events).operations = []) :
    (get_summary now (runEvents events)).total_operations = 0
    ∧ ((runEvents events).start_time = none →
        (get_summary now (runEvents events)).session_duration = 0)
    ∧ ∀ cat ∈ CATEGORIES,
        dictGet cat (get_summary now (runEvents events)).categories
          = some [("total_time", ((0 : ℚ) : WithTop ℚ)),
                  ("count", ((0 : ℚ) : WithTop ℚ)),
                  ("average_time", ((0 : ℚ) : WithTop ℚ)),
                  ("min_time", ((0 : ℚ) : WithTop ℚ)),
                  ("max_time", ((0 : ℚ) : WithTop ℚ)),
                  ("cumulative_percentage", ((0 : ℚ) : WithTop ℚ)),
                  ("timeline_percentage", ((0 : ℚ) : WithTop ℚ))] := by
  refine ⟨by simp [get_summary, h], ?_, ?_⟩
  · intro h0
    simp [get_summary, sessionDuration, h0]
  · intro cat hcat
    have hcnt : ((runEvents events).aggregates cat).count = 0 := by
      rw [(runEvents_stateConsistent events).1 cat, h]
      rfl
    have hcats : (get_summary now (runEvents events)).categories
        = CATEGORIES.map (fun c =>
            (c, categoryStats ((runEvents events).aggregates c)
              (sessionDuration now (runEvents events).start_time)
              (runEvents events).operations c)) := rfl
    rw [hcats, dictGet_map_fn_mem _ CATEGORIES cat hcat]
    simp [categoryStats, hcnt]

/-- C7 witness: the freshly reset session. -/
theorem empty_session_summary_witness :
    (runEvents [Event.reset]).operations = []
    ∧ (get_summary 5 (runEvents [Event.reset])).total_operations = 0
    ∧ dictGet "llm_calls" (get_summary 5 (runEvents [Event.reset])).categories
        = some [("total_time", ((0 : ℚ) : WithTop ℚ)),
                ("count", ((0 : ℚ) : WithTop ℚ)),
                ("average_time", ((0 : ℚ) : WithTop ℚ)),
                ("min_time", ((0 : ℚ) : WithTop ℚ)),
                ("max_time", ((0 : ℚ) : WithTop ℚ)),
                ("cumulative_percentage", ((0 : ℚ) : WithTop ℚ)),
                ("timeline_percentage", ((0 : ℚ) : WithTop ℚ))] :=
  ⟨rfl, (empty_session_summary [Event.reset] 5 rfl).1,
    (empty_session_summary [Event.reset] 5 rfl).2.2 "llm_calls" (by decide)⟩

end Instrumentor

section PositiveClock

open Instrumentor

theorem posClockState_initial : PosClockState initialState :=
  ⟨fun _ h => Option.noConfusion h, fun _ => ⟨rfl, rfl⟩,
    fun r hr => absurd hr (List.not_mem_nil r)⟩

theorem posClockState_start_session (t : ℚ) (ht : 0 < t) (s : Instrumentor) :
    PosClockState (start_session t s) :=
  ⟨fun st h => Option.some.inj h ▸ ht, fun h => Option.noConfusion h,
    fun r hr => absurd hr (List.not_mem_nil r)⟩

theorem posClockState_start_operation (category operation_name : String)
    (metadata : Metadata) (tS tI tA : ℚ) (s : Instrumentor) (hS : 0 < tS)
    (h : PosClockState s) :
    PosClockState
      (start_operation category operation_name metadata tS tI tA s).2 := by
  obtain ⟨hpos, hnone, hrel⟩ := h
  by_cases hcat : category ∈ CATEGORIES
  · cases hst : s.start_time with
    | none =>
      rw [start_operation_none_eq operation_name metadata tS tI tA hcat hst]
      exact ⟨fun st hsteq => Option.some.inj hsteq ▸ hS,
        fun h0 => Option.noConfusion h0,
        fun r hr => absurd hr (List.not_mem_nil r)⟩
    | some st =>
      rw [start_operation_some_eq operation_name metadata tS tI tA hcat hst]
      refine ⟨hpos, fun h0 => ?_, hrel⟩
      have h0' : s.start_time = none := h0
      rw [hst] at h0'
      exact Option.noConfusion h0'
  · rw [start_operation_not_mem_eq operation_name metadata tS tI tA s hcat]
    exact ⟨hpos, hnone, hrel⟩

theorem posClockState_end_operation (operation_id : String) (t : ℚ)
    (s : Instrumentor) (h : PosClockState s) :
    PosClockState (end_operation operation_id t s) := by
  obtain ⟨hpos, hnone, hrel⟩ := h
  cases hget : dictGet operation_id s.active_operations with
  | none =>
    rw [end_operation_not_active hget]
    exact ⟨hpos, hnone, hrel⟩
  | some op =>
    have hst_ne : s.start_time ≠ none := by
      intro h0
      rw [(hnone h0).2] at hget
      exact absurd hget (by simp [dictGet])
    obtain ⟨st, hst⟩ := Option.ne_none_iff_exists'.mp hst_ne
    have h0 : ¬(st = 0) := fun hz => absurd (hz ▸ hpos st hst) (by norm_num)
    rw [end_operation_some_eq hget]
    refine ⟨hpos, fun hn => absurd (show s.start_time = none from hn) hst_ne,
      fun r hr => ?_⟩
    rcases List.mem_append.mp hr with h1 | h1
    · exact hrel r h1
    · have hr2 : r = endRecord op t s.start_time := by simpa using h1
      subst hr2
      exact ⟨st, hst, by simp [endRecord, hst, h0]⟩

theorem posClockState_step (e : Event) (s : Instrumentor)
    (hpos : ∀ t ∈ e.clockReads, 0 < t) (h : PosClockState s) :
    PosClockState (e.step s) := by
  cases e with
  | reset => exact posClockState_initial
  | startSession t =>
    exact posClockState_start_session t
      (hpos t (by simp [Event.clockReads])) s
  | startOperation cat name md tS tI tA =>
    exact posClockState_start_operation cat name md tS tI tA s
      (hpos tS (by simp [Event.clockReads])) h
  | endOperation id t => exact posClockState_end_operation id t s h
  | trackOperation cat name md tS tI tA tE =>
    have h1 : PosClockState (start_operation cat name md tS tI tA s).2 :=
      posClockState_start_operation cat name md tS tI tA s
        (hpos tS (by simp [Event.clockReads])) h
    rcases hso : start_operation cat name md tS tI tA s with ⟨res, s1⟩
    rw [hso] at h1
    cases res with
    | ok id =>
      simp only [Event.step, hso]
      exact posClockState_end_operation id tE s1 h1
    | error e =>
      simp only [Event.step, hso]
      exact h1

theorem foldl_posClockState (events : List Event) :
    ∀ s : Instrumentor, (∀ t ∈ events.flatMap Event.clockReads, 0 < t) →
      PosClockState s →
      PosClockState (events.foldl (fun s e => e.step s) s) := by
  induction events with
  | nil => intro s _ h; exact h
  | cons e rest ih =>
    intro s hpos h
    refine ih _ (fun t ht => hpos t ?_) (posClockState_step e s
      (fun t ht => hpos t ?_) h)
    · rw [List.flatMap_cons]
      exact List.mem_append_right _ ht
    · rw [List.flatMap_cons]
      exact List.mem_append_left _ ht

theorem runEvents_posClockState (events : List Event)
    (hpos : ∀ t ∈ events.flatMap Event.clockReads, 0 < t) :
    PosClockState (runEvents events) :=
  foldl_posClockState events initialState hpos posClockState_initial

end PositiveClock

namespace Instrumentor

/-- C10: along every sequential run of the public operations (with clock
readings positive, as `time.time()` always is), whenever `start_time` is
`None` the completed log and active map are empty; and every completed
record's relative timestamps were computed against a set session
`start_time` — so the `relative_start = 0` / `relative_end = duration`
fallback branches of `end_operation` never fire. -/
theorem start_time_none_empty (events : List Event)
    (hpos : ∀ t ∈ events.flatMap Event.clockReads, 0 < t) :
    ((runEvents events).start_time = none →
      (runEvents events).operations = []
      ∧ (runEvents events).active_operations = [])
    ∧ ∀ r ∈ (runEvents events).operations,
        ∃ st, (runEvents events).start_time = some st
          ∧ r.relative_start = r.start_time - st
          ∧ r.relative_end = r.end_time - st :=
  ⟨(runEvents_posClockState events hpos).2.1,
    (runEvents_posClockState events hpos).2.2⟩

/-- C10 witness: the singleton `reset` run. -/
theorem start_time_none_empty_witness :
    (∀ t ∈ ([Event.reset] : List Event).flatMap Event.clockReads, 0 < t)
    ∧ (runEvents [Event.reset]).operations = []
    ∧ (runEvents [Event.reset]).active_operations = [] :=
  ⟨by simp [Event.clockReads],
    (start_time_none_empty [Event.reset]
      (by simp [Event.clockReads])).1 rfl⟩

end Instrumentor

section MonotoneClock

open Instrumentor

theorem clockInv_mono {s : Instrumentor} {now now' : ℚ} (h : ClockInv s now)
    (hle : now ≤ now') : ClockInv s now' :=
  ⟨fun st hst => le_trans (h.1 st hst) hle,
   fun p hp => ⟨(h.2.1 p hp).1, le_trans (h.2.1 p hp).2 hle⟩,
   fun r hr => ⟨(h.2.2 r hr).1, (h.2.2 r hr).2.1,
     fun st hst => le_trans ((h.2.2 r hr).2.2 st hst) (by linarith)⟩⟩

theorem clockInv_initial (now : ℚ) : ClockInv initialState now :=
  ⟨fun _ h => Option.noConfusion h,
   fun p hp => absurd hp (List.not_mem_nil p),
   fun r hr => absurd hr (List.not_mem_nil r)⟩

theorem clockInv_reset (s : Instrumentor) (now : ℚ) :
    ClockInv (reset s) now := clockInv_initial now

theorem clockInv_start_session (t : ℚ) (s : Instrumentor) :
    ClockInv (start_session t s) t :=
  ⟨fun st hst => le_of_eq (Option.some.inj hst).symm,
   fun p hp => absurd hp (List.not_mem_nil p),
   fun r hr => absurd hr (List.not_mem_nil r)⟩

theorem clockInv_start_operation (category operation_name : String)
    (metadata : Metadata) (tS tI tA : ℚ) (s : Instrumentor) (now : ℚ)
    (h : ClockInv s now) (h1 : now ≤ tS) (h2 : tS ≤ tA) :
    ClockInv (start_operation category operation_name metadata tS tI tA s).2
      tA := by
  obtain ⟨hstart, hact, hops⟩ := h
  by_cases hcat : category ∈ CATEGORIES
  · cases hst : s.start_time with
    | none =>
      rw [start_operation_none_eq operation_name metadata tS tI tA hcat hst]
      refine ⟨fun st hst' => le_trans (le_of_eq (Option.some.inj hst').symm) h2,
        fun p hp => ?_, fun r hr => absurd hr (List.not_mem_nil r)⟩
      rcases mem_dictInsert (show p ∈ dictInsert
          (mkOperationId category operation_name tI)
          ({ category := category, operation_name := operation_name,
             start_time := tA, metadata := metadata } : ActiveOp) [] from hp)
        with hp1 | hp1
      · subst hp1
        exact ⟨⟨tS, rfl, h2⟩, le_refl _⟩
      · exact absurd hp1 (List.not_mem_nil p)
    | some st =>
      rw [start_operation_some_eq operation_name metadata tS tI tA hcat hst]
      refine ⟨fun st' hst' => le_trans (hstart st' hst') (le_trans h1 h2),
        fun p hp => ?_, fun r hr => ?_⟩
      · rcases mem_dictInsert (show p ∈ dictInsert
            (mkOperationId category operation_name tI)
            ({ category := category, operation_name := operation_name,
               start_time := tA, metadata := metadata } : ActiveOp)
            s.active_operations from hp) with hp1 | hp1
        · subst hp1
          exact ⟨⟨st, hst, le_trans (hstart st hst) (le_trans h1 h2)⟩, le_refl _⟩
        · exact ⟨(hact p hp1).1,
            le_trans (hact p hp1).2 (le_trans h1 h2)⟩
      · exact ⟨(hops r hr).1, (hops r hr).2.1,
          fun st' hst' => le_trans ((hops r hr).2.2 st' hst') (by linarith)⟩
  · rw [start_operation_not_mem_eq operation_name metadata tS tI tA s hcat]
    exact clockInv_mono ⟨hstart, hact, hops⟩ (le_trans h1 h2)

theorem clockInv_end_operation (operation_id : String) (t : ℚ)
    (s : Instrumentor) (now : ℚ) (h : ClockInv s now) (hle : now ≤ t) :
    ClockInv (end_operation operation_id t s) t := by
  obtain ⟨hstart, hact, hops⟩ := h
  cases hget : dictGet operation_id s.active_operations with
  | none =>
    rw [end_operation_not_active hget]
    exact clockInv_mono ⟨hstart, hact, hops⟩ hle
  | some op =>
    have hmem : (operation_id, op) ∈ s.active_operations := dictGet_mem hget
    obtain ⟨⟨st, hst, hstle⟩, hople⟩ := hact (operation_id, op) hmem
    rw [end_operation_some_eq hget]
    refine ⟨fun st' hst' => le_trans (hstart st' hst') hle,
      fun p hp => ?_, fun r hr => ?_⟩
    · have hp' := mem_dictRemove
        (show p ∈ dictRemove operation_id s.active_operations from hp)
      exact ⟨(hact p hp').1, le_trans (hact p hp').2 hle⟩
    · rcases List.mem_append.mp
        (show r ∈ s.operations ++ [endRecord op t s.start_time] from hr)
        with h1 | h1
      · exact ⟨(hops r h1).1, (hops r h1).2.1,
          fun st' hst' => le_trans ((hops r h1).2.2 st' hst') (by linarith)⟩
      · have hr2 : r = endRecord op t s.start_time := by simpa using h1
        subst hr2
        by_cases hz : st = 0
        · refine ⟨?_, ?_, ?_⟩
          · simp [endRecord, hst, hz]
          · simp only [endRecord, hst, if_pos hz]
            have : op.start_time ≤ t := le_trans hople hle
            linarith
          · intro st' hst'
            have hsteq : s.start_time = some st' := hst'
            rw [hst] at hsteq
            have hst'' : st' = st := (Option.some.inj hsteq).symm
            subst hst''
            simp only [endRecord, hst, if_pos hz]
            rw [hz]
            have : (0 : ℚ) ≤ op.start_time := hz ▸ hstle
            linarith
        · refine ⟨?_, ?_, ?_⟩
          · simp only [endRecord, hst, if_neg hz]
            linarith
          · simp only [endRecord, hst, if_neg hz]
            have : op.start_time ≤ t := le_trans hople hle
            linarith
          · intro st' hst'
            have hsteq : s.start_time = some st' := hst'
            rw [hst] at hsteq
            have hst'' : st' = st := (Option.some.inj hsteq).symm
            subst hst''
            simp only [endRecord, hst, if_neg hz]
            exact le_refl _

theorem clockInv_step (e : Event) (s : Instrumentor) (now : ℚ)
    (h : ClockInv s now)
    (hp : (now :: e.clockReads).Pairwise (· ≤ ·)) :
    ClockInv (e.step s) (e.lastClock now) := by
  cases e with
  | reset => exact clockInv_reset s now
  | startSession t => exact clockInv_start_session t s
  | startOperation cat name md tS tI tA =>
    simp only [Event.clockReads, List.pairwise_cons, List.mem_cons,
      List.mem_singleton, List.not_mem_nil] at hp
    exact clockInv_start_operation cat name md tS tI tA s now h
      (hp.1 tS (by simp)) (le_trans (hp.2.1 tI (by simp)) (hp.2.2.1 tA (by simp)))
  | endOperation id t =>
    simp only [Event.clockReads, List.pairwise_cons] at hp
    exact clockInv_end_operation id t s now h (hp.1 t (by simp))
  | trackOperation cat name md tS tI tA tE =>
    simp only [Event.clockReads, List.pairwise_cons] at hp
    have hnS : now ≤ tS := hp.1 tS (by simp)
    have hSA : tS ≤ tA := le_trans (hp.2.1 tI (by simp)) (hp.2.2.1 tA (by simp))
    have hAE : tA ≤ tE := hp.2.2.2.1 tE (by simp)
    have h1 := clockInv_start_operation cat name md tS tI tA s now h hnS hSA
    rcases hso : start_operation cat name md tS tI tA s with ⟨res, s1⟩
    rw [hso] at h1
    cases res with
    | ok id =>
      simp only [Event.step, hso]
      exact clockInv_end_operation id tE s1 tA h1 hAE
    | error e =>
      simp only [Event.step, hso]
      exact clockInv_mono h1 hAE

theorem foldl_clockInv (events : List Event) :
    ∀ (s : Instrumentor) (now tEnd : ℚ), ClockInv s now →
      ((now :: events.flatMap Event.clockReads) ++ [tEnd]).Pairwise (· ≤ ·) →
      ClockInv (events.foldl (fun s e => e.step s) s) tEnd := by
  induction events with
  | nil =>
    intro s now tEnd h hp
    simp only [List.flatMap_nil, List.cons_append, List.nil_append,
      List.pairwise_cons, List.mem_singleton] at hp
    exact clockInv_mono h (hp.1 tEnd rfl)
  | cons e rest ih =>
    intro s now tEnd h hp
    simp only [List.flatMap_cons, List.cons_append, List.append_assoc] at hp
    obtain ⟨hnow, hrest⟩ := List.pairwise_cons.mp hp
    have H1 : (now :: e.clockReads).Pairwise (· ≤ ·) :=
      List.pairwise_cons.mpr
        ⟨fun x hx => hnow x (List.mem_append_left _ hx),
         hrest.sublist (List.sublist_append_left _ _)⟩
    have hstep := clockInv_step e s now h H1
    have hmemlast : e.lastClock now = now ∨ e.lastClock now ∈ e.clockReads := by
      cases e <;> simp [Event.lastClock, Event.clockReads]
    have hAB := (List.pairwise_append.mp hrest).2.2
    have hBtl := (List.pairwise_append.mp hrest).2.1
    have ha : ∀ x ∈ rest.flatMap Event.clockReads ++ [tEnd],
        e.lastClock now ≤ x := by
      intro x hx
      rcases hmemlast with hl | hl
      · rw [hl]
        exact hnow x (List.mem_append_right _ hx)
      · exact hAB _ hl x hx
    refine ih (e.step s) (e.lastClock now) tEnd hstep ?_
    simp only [List.cons_append]
    exact List.pairwise_cons.mpr ⟨ha, hBtl⟩

theorem runEvents_clockInv (events : List Event) (tEnd : ℚ)
    (h : (events.flatMap Event.clockReads ++ [tEnd]).Pairwise (· ≤ ·)) :
    ClockInv (runEvents events) tEnd := by
  cases hfm : events.flatMap Event.clockReads with
  | nil =>
    refine foldl_clockInv events initialState tEnd tEnd (clockInv_initial tEnd)
      ?_
    rw [hfm]
    simp [List.pairwise_cons]
  | cons x xs =>
    refine foldl_clockInv events initialState x tEnd (clockInv_initial x) ?_
    rw [hfm] at h
    simp only [List.cons_append] at h
    obtain ⟨h1, h2⟩ := List.pairwise_cons.mp h
    rw [hfm]
    simp only [List.cons_append]
    refine List.pairwise_cons.mpr ⟨?_, List.pairwise_cons.mpr ⟨h1, h2⟩⟩
    intro y hy
    rcases List.mem_cons.mp hy with rfl | hy'
    · exact le_refl _
    · exact h1 y hy'

end MonotoneClock

namespace Instrumentor

theorem round2_nonneg {x : ℚ} (h0 : 0 ≤ x) : 0 ≤ round2 x := by
  unfold round2
  apply div_nonneg _ (by norm_num)
  have h1 : (0 : ℤ) ≤ round (x * 100) := by
    rw [round_eq]
    apply Int.le_floor.mpr
    push_cast
    linarith
  exact_mod_cast h1

theorem round2_le_100 {x : ℚ} (h100 : x ≤ 100) : round2 x ≤ 100 := by
  unfold round2
  rw [div_le_iff (by norm_num : (0 : ℚ) < 100)]
  have h1 : round (x * 100) ≤ (10000 : ℤ) := by
    rw [round_eq]
    have h2 : x * 100 + 1 / 2 < ((10001 : ℤ) : ℚ) := by push_cast; linarith
    have h3 := Int.floor_lt.mpr h2
    omega
  calc ((round (x * 100) : ℤ) : ℚ) ≤ ((10000 : ℤ) : ℚ) := by exact_mod_cast h1
    _ = 100 * 100 := by norm_num

theorem lexLe_trans : ∀ a b c : ℚ × ℚ,
    lexLe a b = true → lexLe b c = true → lexLe a c = true := by
  intro a b c hab hbc
  unfold lexLe at *
  simp only [Bool.or_eq_true, Bool.and_eq_true, decide_eq_true_eq] at *
  rcases hab with h | ⟨h1, h2⟩ <;> rcases hbc with h' | ⟨h1', h2'⟩
  · exact Or.inl (lt_trans h h')
  · exact Or.inl (h1' ▸ h)
  · exact Or.inl (h1 ▸ h')
  · exact Or.inr ⟨h1.trans h1', le_trans h2 h2'⟩

theorem lexLe_total : ∀ a b : ℚ × ℚ, (lexLe a b || lexLe b a) = true := by
  intro a b
  unfold lexLe
  simp only [Bool.or_eq_true, Bool.and_eq_true, decide_eq_true_eq]
  rcases lt_trichotomy a.1 b.1 with h | h | h
  · exact Or.inl (Or.inl h)
  · rcases le_total a.2 b.2 with h2 | h2
    · exact Or.inl (Or.inr ⟨h, h2⟩)
    · exact Or.inr (Or.inr ⟨h.symm, h2⟩)
  · exact Or.inr (Or.inl h)

theorem lexLe_fst_le {a b : ℚ × ℚ} (h : lexLe a b = true) : a.1 ≤ b.1 := by
  unfold lexLe at h
  simp only [Bool.or_eq_true, Bool.and_eq_true, decide_eq_true_eq] at h
  rcases h with h | ⟨h1, _⟩
  · exact le_of_lt h
  · exact le_of_eq h1

theorem mergeSort_sorted_fst (l : List (ℚ × ℚ)) :
    (l.mergeSort lexLe).Pairwise (fun a b => a.1 ≤ b.1) :=
  (List.sorted_mergeSort lexLe_trans lexLe_total l).imp lexLe_fst_le

/-- The coverage the source computes lies in `[0, 100]` whenever every
record of the category has its relative interval inside `[0, dur]`. -/
theorem coverage_bounds (ops : List OperationRecord) (category : String)
    (dur : ℚ)
    (hiv : ∀ r ∈ ops, r.category = category →
      0 ≤ r.relative_start ∧ r.relative_start ≤ r.relative_end
      ∧ r.relative_end ≤ dur) :
    0 ≤ calculate_timeline_coverage ops category dur
    ∧ calculate_timeline_coverage ops category dur ≤ 100 := by
  unfold calculate_timeline_coverage
  by_cases hd : dur ≤ 0
  · rw [if_pos hd]
    norm_num
  · rw [if_neg hd]
    have hdur : 0 < dur := lt_of_not_le hd
    by_cases hemp : (ops.filter (fun op => op.category == category)).isEmpty
    · rw [if_pos hemp]
      norm_num
    · rw [if_neg hemp]
      show 0 ≤ round2 (sumLen (mergeIntervals
          (((ops.filter (fun op => op.category == category)).map
            (fun op => (op.relative_start, op.relative_end))).mergeSort lexLe))
          / dur * 100)
        ∧ round2 (sumLen (mergeIntervals
          (((ops.filter (fun op => op.category == category)).map
            (fun op => (op.relative_start, op.relative_end))).mergeSort lexLe))
          / dur * 100) ≤ 100
      set l := ((ops.filter (fun op => op.category == category)).map
        (fun op => (op.relative_start, op.relative_end))).mergeSort lexLe
        with hl
      have hmem : ∀ iv ∈ l, 0 ≤ iv.1 ∧ iv.1 ≤ iv.2 ∧ iv.2 ≤ dur := by
        intro iv hivl
        rw [hl, List.mem_mergeSort] at hivl
        obtain ⟨r, hrm, hre⟩ := List.mem_map.mp hivl
        obtain ⟨hrmem, hrcat⟩ := List.mem_filter.mp hrm
        have hb := hiv r hrmem (by simpa using hrcat)
        rw [← hre]
        exact hb
      have hsort : l.Pairwise (fun a b => a.1 ≤ b.1) := mergeSort_sorted_fst _
      have hS1 := mergeIntervals_sumLen_nonneg l
        (fun iv hivl => (hmem iv hivl).2.1)
      have hS2 := mergeIntervals_sumLen_le l dur (le_of_lt hdur) hmem hsort
      have h1 : 0 ≤ sumLen (mergeIntervals l) / dur * 100 := by positivity
      have h2 : sumLen (mergeIntervals l) / dur * 100 ≤ 100 := by
        rw [div_mul_eq_mul_div, div_le_iff hdur]
        nlinarith
      exact ⟨round2_nonneg h1, round2_le_100 h2⟩

/-- C2: for every run of the public operations under a monotone clock (every
reading, and the summary's own reading, is `≥` all earlier ones), the
`timeline_percentage` that `get_summary` reports for every category lies in
`[0, 100]` — even though the same category's `cumulative_percentage` has no
such bound under overlap. -/
theorem timeline_percentage_bounds (events : List Event) (tsum : ℚ)
    (hmono : (events.flatMap Event.clockReads ++ [tsum]).Pairwise (· ≤ ·))
    (cat : String) (stats : List (String × WithTop ℚ))
    (h : dictGet cat (get_summary tsum (runEvents events)).categories
      = some stats) :
    ∃ tp : ℚ, dictGet "timeline_percentage" stats = some (tp : WithTop ℚ)
      ∧ 0 ≤ tp ∧ tp ≤ 100 := by
  have hstats : stats = categoryStats ((runEvents events).aggregates cat)
      (sessionDuration tsum (runEvents events).start_time)
      (runEvents events).operations cat :=
    dictGet_map_fn
      (fun c => categoryStats ((runEvents events).aggregates c)
        (sessionDuration tsum (runEvents events).start_time)
        (runEvents events).operations c) CATEGORIES cat stats h
  rw [hstats]
  unfold categoryStats
  by_cases hc : 0 < ((runEvents events).aggregates cat).count
  · rw [if_pos hc]
    refine ⟨calculate_timeline_coverage (runEvents events).operations cat
      (sessionDuration tsum (runEvents events).start_time), by simp [dictGet],
      ?_⟩
    by_cases hd : sessionDuration tsum (runEvents events).start_time ≤ 0
    · unfold calculate_timeline_coverage
      rw [if_pos hd]
      norm_num
    · have hinv := runEvents_clockInv events tsum hmono
      obtain ⟨hstart, hact, hops⟩ := hinv
      cases hst : (runEvents events).start_time with
      | none =>
        exfalso
        apply hd
        simp [sessionDuration, hst]
      | some st =>
        by_cases hz : st = 0
        · exfalso
          apply hd
          simp [sessionDuration, hst, hz]
        · have hdur_eq : sessionDuration tsum (some st) = tsum - st := by
            simp [sessionDuration, hz]
          refine coverage_bounds (runEvents events).operations cat _ ?_
          intro r hr _
          obtain ⟨hb1, hb2, hb3⟩ := hops r hr
          exact ⟨hb1, hb2, by rw [hdur_eq]; exact hb3 st hst⟩
  · rw [if_neg hc]
    exact ⟨0, by simp [dictGet], le_refl 0, by norm_num⟩

/-- C2 witness: the empty run observed at time 0. -/
theorem timeline_percentage_bounds_witness :
    ((([] : List Event).flatMap Event.clockReads) ++ [(0 : ℚ)]).Pairwise
        (· ≤ ·)
    ∧ dictGet "llm_calls"
        (get_summary 0 (runEvents [])).categories
        = some [("total_time", ((0 : ℚ) : WithTop ℚ)),
                ("count", ((0 : ℚ) : WithTop ℚ)),
                ("average_time", ((0 : ℚ) : WithTop ℚ)),
                ("min_time", ((0 : ℚ) : WithTop ℚ)),
                ("max_time", ((0 : ℚ) : WithTop ℚ)),
                ("cumulative_percentage", ((0 : ℚ) : WithTop ℚ)),
                ("timeline_percentage", ((0 : ℚ) : WithTop ℚ))]
    ∧ ∃ tp : ℚ,
        dictGet "timeline_percentage"
          [(("total_time" : String), ((0 : ℚ) : WithTop ℚ)),
           ("count", ((0 : ℚ) : WithTop ℚ)),
           ("average_time", ((0 : ℚ) : WithTop ℚ)),
           ("min_time", ((0 : ℚ) : WithTop ℚ)),
           ("max_time", ((0 : ℚ) : WithTop ℚ)),
           ("cumulative_percentage", ((0 : ℚ) : WithTop ℚ)),
           ("timeline_percentage", ((0 : ℚ) : WithTop ℚ))]
          = some (tp : WithTop ℚ) ∧ 0 ≤ tp ∧ tp ≤ 100 := by
  have hget : dictGet "llm_calls" (get_summary 0 (runEvents [])).categories
      = some [("total_time", ((0 : ℚ) : WithTop ℚ)),
              ("count", ((0 : ℚ) : WithTop ℚ)),
              ("average_time", ((0 : ℚ) : WithTop ℚ)),
              ("min_time", ((0 : ℚ) : WithTop ℚ)),
              ("max_time", ((0 : ℚ) : WithTop ℚ)),
              ("cumulative_percentage", ((0 : ℚ) : WithTop ℚ)),
              ("timeline_percentage", ((0 : ℚ) : WithTop ℚ))] := by
    simp [get_summary, runEvents, initialState, sessionDuration, CATEGORIES,
      dictGet, categoryStats, initialAggregate]
  exact ⟨by simp, hget,
    timeline_percentage_bounds [] 0 (by simp) "llm_calls" _ hget⟩

end Instrumentor

namespace Instrumentor

/-- C8: in every session (run of the public operations under a monotone
clock) with positive session duration, a category whose completed records
are pairwise non-overlapping (no record's closed relative interval meets
another's open interior) gets equal `cumulative_percentage` and
`timeline_percentage` from `get_summary`. -/
theorem nonoverlap_cumulative_eq_timeline (events : List Event) (tsum : ℚ)
    (cat : String)
    (hmono : (events.flatMap Event.clockReads ++ [tsum]).Pairwise (· ≤ ·))
    (hdur : 0 < (get_summary tsum (runEvents events)).session_duration)
    (hsep : ((runEvents events).operations.filter
        (fun r => r.category == cat)).Pairwise
      (fun a b => IntervalsSeparated (a.relative_start, a.relative_end)
        (b.relative_start, b.relative_end)))
    (stats : List (String × WithTop ℚ))
    (h : dictGet cat (get_summary tsum (runEvents events)).categories
      = some stats) :
    dictGet "cumulative_percentage" stats
      = dictGet "timeline_percentage" stats := by
  have hstats : stats = categoryStats ((runEvents events).aggregates cat)
      (sessionDuration tsum (runEvents events).start_time)
      (runEvents events).operations cat :=
    dictGet_map_fn
      (fun c => categoryStats ((runEvents events).aggregates c)
        (sessionDuration tsum (runEvents events).start_time)
        (runEvents events).operations c) CATEGORIES cat stats h
  have hdur' : 0 < sessionDuration tsum (runEvents events).start_time := hdur
  rw [hstats]
  unfold categoryStats
  by_cases hc : 0 < ((runEvents events).aggregates cat).count
  · rw [if_pos hc]
    obtain ⟨hcount, htotal, hlens, _⟩ := runEvents_stateConsistent events
    obtain ⟨hstart, hact, hops⟩ := runEvents_clockInv events tsum hmono
    have hfilne :
        (runEvents events).operations.filter (fun r => r.category == cat)
          ≠ [] := by
      intro hnil
      rw [hcount cat, hnil] at hc
      exact absurd hc (by simp)
    have hkey : (if 0 < sessionDuration tsum (runEvents events).start_time
          then round2 (((runEvents events).aggregates cat).total_time /
            sessionDuration tsum (runEvents events).start_time * 100)
          else 0)
        = calculate_timeline_coverage (runEvents events).operations cat
            (sessionDuration tsum (runEvents events).start_time) := by
      rw [if_pos hdur']
      unfold calculate_timeline_coverage
      rw [if_neg (not_le.mpr hdur')]
      have hemp : ¬(((runEvents events).operations.filter
          (fun r => r.category == cat)).isEmpty = true) := by
        rw [List.isEmpty_iff]
        exact hfilne
      simp only []
      rw [if_neg hemp]
      have hSeq : sumLen (mergeIntervals
          ((((runEvents events).operations.filter
            (fun r => r.category == cat)).map
            (fun op => (op.relative_start, op.relative_end))).mergeSort lexLe))
          = ((runEvents events).aggregates cat).total_time := by
        have hlen_iv : ∀ iv ∈ (((runEvents events).operations.filter
            (fun r => r.category == cat)).map
            (fun op => (op.relative_start, op.relative_end))).mergeSort lexLe,
            iv.1 ≤ iv.2 := by
          intro iv hiv
          rw [List.mem_mergeSort] at hiv
          obtain ⟨r, hrm, hre⟩ := List.mem_map.mp hiv
          have hb := (hops r (List.mem_filter.mp hrm).1).2.1
          rw [← hre]
          exact hb
        have hsort := mergeSort_sorted_fst
          (((runEvents events).operations.filter
            (fun r => r.category == cat)).map
            (fun op => (op.relative_start, op.relative_end)))
        have hsep2 : ((((runEvents events).operations.filter
            (fun r => r.category == cat)).map
            (fun op => (op.relative_start, op.relative_end))).mergeSort
              lexLe).Pairwise IntervalsSeparated := by
          have hmapped : (((runEvents events).operations.filter
              (fun r => r.category == cat)).map
              (fun op => (op.relative_start, op.relative_end))).Pairwise
                IntervalsSeparated := by
            rw [List.pairwise_map]
            exact hsep
          exact (List.Perm.pairwise_iff intervalsSeparated_symm
            (List.mergeSort_perm _ lexLe)).mpr hmapped
        rw [mergeIntervals_sumLen_of_separated _ hlen_iv hsort hsep2]
        have h2 : sumLen ((((runEvents events).operations.filter
            (fun r => r.category == cat)).map
            (fun op => (op.relative_start, op.relative_end))).mergeSort lexLe)
            = sumLen (((runEvents events).operations.filter
              (fun r => r.category == cat)).map
              (fun op => (op.relative_start, op.relative_end))) := by
          unfold sumLen
          exact ((List.mergeSort_perm _ lexLe).map (fun p => p.2 - p.1)).sum_eq
        rw [h2]
        have h3 : sumLen (((runEvents events).operations.filter
            (fun r => r.category == cat)).map
            (fun op => (op.relative_start, op.relative_end)))
            = ((((runEvents events).operations.filter
              (fun r => r.category == cat)).map (fun r => r.duration))).sum := by
          unfold sumLen
          rw [List.map_map]
          exact congrArg List.sum (List.map_congr_left
            (fun r hr => hlens r (List.mem_filter.mp hr).1))
        rw [h3, ← htotal cat]
      simp only [hSeq]
    simpa [dictGet] using hkey
  · rw [if_neg hc]
    simp [dictGet]

/-- C8 witness: a session of duration 1 with no completed operations. -/
theorem nonoverlap_cumulative_eq_timeline_witness :
    ((([Event.startSession 1] : List Event).flatMap Event.clockReads)
        ++ [(2 : ℚ)]).Pairwise (· ≤ ·)
    ∧ 0 < (get_summary 2 (runEvents [Event.startSession 1])).session_duration
    ∧ ((runEvents [Event.startSession 1]).operations.filter
        (fun r => r.category == "llm_calls")).Pairwise
      (fun a b => IntervalsSeparated (a.relative_start, a.relative_end)
        (b.relative_start, b.relative_end))
    ∧ dictGet "llm_calls"
        (get_summary 2 (runEvents [Event.startSession 1])).categories
        = some [("total_time", ((0 : ℚ) : WithTop ℚ)),
                ("count", ((0 : ℚ) : WithTop ℚ)),
                ("average_time", ((0 : ℚ) : WithTop ℚ)),
                ("min_time", ((0 : ℚ) : WithTop ℚ)),
                ("max_time", ((0 : ℚ) : WithTop ℚ)),
                ("cumulative_percentage", ((0 : ℚ) : WithTop ℚ)),
                ("timeline_percentage", ((0 : ℚ) : WithTop ℚ))]
    ∧ dictGet "cumulative_percentage"
        [(("total_time" : String), ((0 : ℚ) : WithTop ℚ)),
         ("count", ((0 : ℚ) : WithTop ℚ)),
         ("average_time", ((0 : ℚ) : WithTop ℚ)),
         ("min_time", ((0 : ℚ) : WithTop ℚ)),
         ("max_time", ((0 : ℚ) : WithTop ℚ)),
         ("cumulative_percentage", ((0 : ℚ) : WithTop ℚ)),
         ("timeline_percentage", ((0 : ℚ) : WithTop ℚ))]
        = dictGet "timeline_percentage"
        [(("total_time" : String), ((0 : ℚ) : WithTop ℚ)),
         ("count", ((0 : ℚ) : WithTop ℚ)),
         ("average_time", ((0 : ℚ) : WithTop ℚ)),
         ("min_time", ((0 : ℚ) : WithTop ℚ)),
         ("max_time", ((0 : ℚ) : WithTop ℚ)),
         ("cumulative_percentage", ((0 : ℚ) : WithTop ℚ)),
         ("timeline_percentage", ((0 : ℚ) : WithTop ℚ))] := by
  have hrun : runEvents [Event.startSession 1]
      = start_session 1 initialState := rfl
  have hmono : ((([Event.startSession 1] : List Event).flatMap
      Event.clockReads) ++ [(2 : ℚ)]).Pairwise (· ≤ ·) := by
    simp [Event.clockReads, List.pairwise_cons]
  have hdur : 0 < (get_summary 2
      (runEvents [Event.startSession 1])).session_duration := by
    rw [hrun]
    norm_num [get_summary, sessionDuration, start_session, reset, initialState]
  have hsep : ((runEvents [Event.startSession 1]).operations.filter
      (fun r => r.category == "llm_calls")).Pairwise
      (fun a b => IntervalsSeparated (a.relative_start, a.relative_end)
        (b.relative_start, b.relative_end)) := by
    rw [hrun]
    simp [start_session, reset, initialState]
  have hget : dictGet "llm_calls"
      (get_summary 2 (runEvents [Event.startSession 1])).categories
      = some [("total_time", ((0 : ℚ) : WithTop ℚ)),
              ("count", ((0 : ℚ) : WithTop ℚ)),
              ("average_time", ((0 : ℚ) : WithTop ℚ)),
              ("min_time", ((0 : ℚ) : WithTop ℚ)),
              ("max_time", ((0 : ℚ) : WithTop ℚ)),
              ("cumulative_percentage", ((0 : ℚ) : WithTop ℚ)),
              ("timeline_percentage", ((0 : ℚ) : WithTop ℚ))] := by
    rw [hrun]
    simp [get_summary, sessionDuration, start_session, reset, initialState,
      CATEGORIES, dictGet, categoryStats, initialAggregate]
  exact ⟨hmono, hdur, hsep, hget,
    nonoverlap_cumulative_eq_timeline [Event.startSession 1] 2 "llm_calls"
      hmono hdur hsep _ hget⟩

end Instrumentor
